import Mathlib

/-!
Verification of the LvArray `CRSMatrix` compressed-row-storage engine
(`src/CRSMatrix.hpp`).

The matrix is embedded shallowly: each row is a pair of equal-length lists
(`cols` for the column indices, `entries` for the stored values) together with
a capacity, and the matrix is a list of rows plus the column count.  The
column buffer and the entry buffer are kept as two physically separate lists,
mirroring the two parallel buffers of the C++ code, and every mutation drives
them through the same position-based primitives (`insAt`, `delAt`) that the
C++ `arrayManipulation` routines implement, so that the synchronization of
the two buffers is a theorem rather than a modelling artefact.

Operations whose implementation lives outside the provided source (the
generic sorted-set algorithm, `setCapacityOfArray`, `compress`, `resize`,
`setEqualTo`, buffer move semantics) are modelled from the specification and
carry a doc comment saying so.  Fatal contract violations (out-of-range row
or column) are embedded as `Option.none`.
-/

namespace LvArray

/-! ## Definitions -/

/--
Modelled from the spec: `arrayManipulation::insert(buffer, size, pos, value)`
shifts the elements in `[pos, size)` up by one and places `value` at `pos`.
In list form: insert `a` at index `p` (a no-op when `p` is out of range,
which the engine never does).
-/
def insAt {α : Type} : Nat → α → List α → List α
  | 0, a, l => a :: l
  | _ + 1, _, [] => []
  | p + 1, a, b :: l => b :: insAt p a l

/--
Modelled from the spec: `arrayManipulation::erase(buffer, size, pos)` shifts
the elements after `pos` down by one, destroying the element at `pos`.  In
list form: delete the element at index `p`.
-/
def delAt {α : Type} : Nat → List α → List α
  | _, [] => []
  | 0, _ :: l => l
  | p + 1, b :: l => b :: delAt p l

/--
Modelled from the spec: the binary search used by the sorted-set algorithm to
find the insertion position of `c` in an ascending list — the number of
leading elements strictly below `c`.
-/
def lowerBound (c : Nat) : List Nat → Nat
  | [] => 0
  | a :: l => if a < c then lowerBound c l + 1 else 0

/--
One row of the matrix: the sub-range of the `columns` buffer, the matching
sub-range of the `entries` buffer, and the row's capacity
(`offsets[r+1] - offsets[r]`).  The slack beyond the used length is
uninitialized memory (spec invariant I5) and is therefore not part of the
model.
-/
structure RowData (T : Type) where
  cols : List Nat
  entries : List T
  capacity : Nat
deriving DecidableEq

/-- Used length of a row, `sizes[r]` — the number of stored nonzeros. -/
def RowData.size {T : Type} (r : RowData T) : Nat := r.cols.length

/-- Row with no entries and the given capacity. -/
def emptyRow {T : Type} (cap : Nat) : RowData T := ⟨[], [], cap⟩

/--
Modelled from the spec: `setCapacityOfArray(row, newCapacity, buffers)`
(implementation not under `src/`): the row's backing region is resized to
`newCapacity`; "if `newCapacity` is less than the current size, existing
trailing entries beyond the new capacity are destroyed (truncation, not an
error)".
-/
def rowSetCapacity {T : Type} (r : RowData T) (newCap : Nat) : RowData T :=
  ⟨r.cols.take newCap, r.entries.take newCap, newCap⟩

/--
Translated from `CRSMatrix::CallBacks::incrementSize` (src/CRSMatrix.hpp
lines 337-348) combined with `CRSMatrix::dynamicallyGrowRow` (lines 302-303,
`setRowCapacity(row, 2 * newNNZ)`) and the clamp in
`CRSMatrix::setRowCapacity` (lines 253-257): when the announced insertions
would overflow the row's capacity, the capacity becomes
`min (2 * (size + nToAdd)) numColumns` before anything is placed.
-/
def growForInsert {T : Type} (nc : Nat) (r : RowData T) (nToAdd : Nat) : RowData T :=
  if r.size + nToAdd > r.capacity then rowSetCapacity r (min (2 * (r.size + nToAdd)) nc) else r

/--
Modelled from the spec: the placement step of the sorted-set insertion
protocol — the column is placed at its lower-bound position in the column
buffer and the callback performs "the matching placement of the associated
value" at the same position in the entry buffer.
-/
def rowPlace {T : Type} (r : RowData T) (c : Nat) (v : T) : RowData T :=
  ⟨insAt (lowerBound c r.cols) c r.cols, insAt (lowerBound c r.cols) v r.entries, r.capacity⟩

/--
Modelled from the spec: single-element sorted-set insertion
(`insertIntoSetImpl`, implementation not under `src/`): the column is looked
up; a column already present is reported as a non-insertion with nothing
touched; otherwise `incrementSize(1)` may grow the row and the (column,
value) pair is placed.
-/
def rowInsertOne {T : Type} (nc : Nat) (r : RowData T) (c : Nat) (v : T) : RowData T × Bool :=
  if c ∈ r.cols then (r, false)
  else (rowPlace (growForInsert nc r 1) c v, true)

/--
Modelled from the spec: the per-element loop of batch sorted-set insertion;
candidates whose column is already present are skipped ("each skip reported
as non-insertion") and every other pair is placed at its position.  The spec
notes that one placement per element is functionally equivalent to the
shift-amortized batch routine ("doing one shift per element would still be
correct").
-/
def rowInsertLoop {T : Type} : List (Nat × T) → RowData T → RowData T × Nat
  | [], r => (r, 0)
  | (c, v) :: rest, r =>
    if c ∈ r.cols then rowInsertLoop rest r
    else
      let res := rowInsertLoop rest (rowPlace r c v)
      (res.1, res.2 + 1)

/--
Modelled from the spec: batch sorted insertion (`insertSortedIntoSetImpl`,
implementation not under `src/`): `incrementSize(n)` is invoked once up
front with the full batch size ("up to `n` new elements are coming") and may
grow the row; then the pairs are inserted.
-/
def rowInsertSorted {T : Type} (nc : Nat) (r : RowData T) (pairs : List (Nat × T)) :
    RowData T × Nat :=
  rowInsertLoop pairs (growForInsert nc r pairs.length)

/--
Modelled from the spec: single-element sorted-set removal — an absent column
is a non-removal; otherwise the column and its entry are erased at the
column's position ("a symmetric callback that shifts entries down to close
gaps").
-/
def rowRemoveOne {T : Type} (r : RowData T) (c : Nat) : RowData T × Bool :=
  if c ∈ r.cols then
    (⟨delAt (lowerBound c r.cols) r.cols, delAt (lowerBound c r.cols) r.entries, r.capacity⟩,
      true)
  else (r, false)

/-- Modelled from the spec: the per-element loop of batch sorted-set removal. -/
def rowRemoveLoop {T : Type} : List Nat → RowData T → RowData T × Nat
  | [], r => (r, 0)
  | c :: rest, r =>
    let step := rowRemoveOne r c
    let res := rowRemoveLoop rest step.1
    (res.1, res.2 + if step.2 then 1 else 0)

/--
Modelled from the spec: `sortedArrayManipulation::dualSort` sorts the
candidate (column, value) pairs "as a unit" by column.  Insertion sort; on
the duplicate-free batches the engine accepts every comparison sort produces
the same list.
-/
def pairOrderedInsert {T : Type} (p : Nat × T) : List (Nat × T) → List (Nat × T)
  | [] => [p]
  | q :: t => if p.1 ≤ q.1 then p :: q :: t else q :: pairOrderedInsert p t

/-- Modelled from the spec: sorting pass of the unsorted batch entry points. -/
def dualSort {T : Type} : List (Nat × T) → List (Nat × T)
  | [] => []
  | p :: t => pairOrderedInsert p (dualSort t)

/-- Modelled from the spec: the sorting pass of the unsorted batch removal. -/
def natOrderedInsert (c : Nat) : List Nat → List Nat
  | [] => [c]
  | a :: t => if c ≤ a then c :: a :: t else a :: natOrderedInsert c t

/-- Modelled from the spec: sorting pass for plain column lists. -/
def natSort : List Nat → List Nat
  | [] => []
  | c :: t => natOrderedInsert c (natSort t)

/-- Keys (column indices) of a specification-level row. -/
def keys {T : Type} (l : List (Nat × T)) : List Nat := l.map Prod.fst

/--
Specification-level single insertion.  The spec's data model (invariant I4)
stores each row as a single sequence of positionally paired (column, value)
pairs; this definition follows the spec's words and is compared with the
two-buffer implementation model by the refinement theorems below.
-/
def specInsertOne {T : Type} (l : List (Nat × T)) (c : Nat) (v : T) : List (Nat × T) × Bool :=
  if c ∈ keys l then (l, false) else (insAt (lowerBound c (keys l)) (c, v) l, true)

/-- Specification-level batch insertion loop (see `specInsertOne`). -/
def specInsertLoop {T : Type} : List (Nat × T) → List (Nat × T) → List (Nat × T) × Nat
  | [], l => (l, 0)
  | (c, v) :: rest, l =>
    if c ∈ keys l then specInsertLoop rest l
    else
      let res := specInsertLoop rest (insAt (lowerBound c (keys l)) (c, v) l)
      (res.1, res.2 + 1)

/-- Specification-level single removal (see `specInsertOne`). -/
def specRemoveOne {T : Type} (l : List (Nat × T)) (c : Nat) : List (Nat × T) × Bool :=
  if c ∈ keys l then (delAt (lowerBound c (keys l)) l, true) else (l, false)

/-- Specification-level batch removal loop (see `specInsertOne`). -/
def specRemoveLoop {T : Type} : List Nat → List (Nat × T) → List (Nat × T) × Nat
  | [], l => (l, 0)
  | c :: rest, l =>
    let step := specRemoveOne l c
    let res := specRemoveLoop rest step.1
    (res.1, res.2 + if step.2 then 1 else 0)

/-- Abstraction of a row to its specification-level pair list. -/
def rowAbs {T : Type} (r : RowData T) : List (Nat × T) := r.cols.zip r.entries

/--
Structural validity of a row with respect to the number of columns: spec
invariant I3 (columns strictly ascending, all below `numColumns`) together
with the positional pairing prerequisite that the two buffers have equal
used length.
-/
def RowOk {T : Type} (nc : Nat) (r : RowData T) : Prop :=
  r.cols.Pairwise (· < ·) ∧ (∀ c ∈ r.cols, c < nc) ∧ r.entries.length = r.cols.length

/-- Full row validity: structural validity plus spec invariant I2, `size ≤ capacity`. -/
def RowValid {T : Type} (nc : Nat) (r : RowData T) : Prop :=
  RowOk nc r ∧ r.size ≤ r.capacity

/--
Shallow embedding of `LvArray::CRSMatrix`: the column count `m_numCols` and
the per-row partition of the `columns`/`entries` buffers induced by
`m_offsets`/`m_sizes`.  Row `r`'s capacity is `offsets[r+1] - offsets[r]`;
the inter-row layout carries no further observable information, so the rows
are kept as a list.
-/
structure CRSMatrix (T : Type) where
  numCols : Nat
  rows : List (RowData T)
deriving DecidableEq

namespace CRSMatrix

/-- Number of rows, `numRows()`. -/
def numRows {T : Type} (m : CRSMatrix T) : Nat := m.rows.length

/-- Number of columns, `numColumns()`. -/
def numColumns {T : Type} (m : CRSMatrix T) : Nat := m.numCols

/-- Row lookup (total helper; public operations bounds-check separately). -/
def rowAt {T : Type} (m : CRSMatrix T) (r : Nat) : RowData T := (m.rows[r]?).getD (emptyRow 0)

/-- Per-row nonzero count, `numNonZeros(row)` = `sizes[row]`. -/
def numNonZeros {T : Type} (m : CRSMatrix T) (r : Nat) : Nat := (m.rowAt r).size

/-- Per-row capacity, `nonZeroCapacity(row)` = `offsets[row+1] - offsets[row]`. -/
def nonZeroCapacity {T : Type} (m : CRSMatrix T) (r : Nat) : Nat := (m.rowAt r).capacity

/-- Total nonzero count, `numNonZeros()`. -/
def totalNonZeros {T : Type} (m : CRSMatrix T) : Nat := (m.rows.map RowData.size).sum

/-- Total capacity, `nonZeroCapacity()` = `offsets[numRows]`. -/
def totalCapacity {T : Type} (m : CRSMatrix T) : Nat := (m.rows.map RowData.capacity).sum

/-- Columns of a row, `getColumns(row)`. -/
def getColumns {T : Type} (m : CRSMatrix T) (r : Nat) : List Nat := (m.rowAt r).cols

/-- Entries of a row, `getEntries(row)`. -/
def getEntries {T : Type} (m : CRSMatrix T) (r : Nat) : List T := (m.rowAt r).entries

/--
Translated from `CRSMatrix::insertNonZero` (src/CRSMatrix.hpp lines 204-206):
single insertion through `insertIntoSetImpl` with a `CallBacks` bound to the
row and one entry.  An out-of-range row or column is a fatal contract
violation, embedded as `none`.
-/
def insertNonZero {T : Type} (m : CRSMatrix T) (row col : Nat) (v : T) :
    Option (CRSMatrix T × Bool) :=
  if row < m.numRows ∧ col < m.numCols then
    some ({ m with rows := m.rows.set row (rowInsertOne m.numCols (m.rowAt row) col v).1 },
      (rowInsertOne m.numCols (m.rowAt row) col v).2)
  else none

/--
Translated from `CRSMatrix::insertNonZerosSorted` (src/CRSMatrix.hpp lines
235-240): batch insertion through `insertSortedIntoSetImpl`; the candidate
columns must be strictly ascending and below `numColumns` (the sorted entry
point's contract), and the row must be in range.
-/
def insertNonZerosSorted {T : Type} (m : CRSMatrix T) (row : Nat) (pairs : List (Nat × T)) :
    Option (CRSMatrix T × Nat) :=
  if row < m.numRows ∧ (∀ p ∈ pairs, p.1 < m.numCols) ∧
      pairs.Pairwise (fun a b => a.1 < b.1) then
    some ({ m with rows := m.rows.set row (rowInsertSorted m.numCols (m.rowAt row) pairs).1 },
      (rowInsertSorted m.numCols (m.rowAt row) pairs).2)
  else none

/--
Translated from `CRSMatrix::insertNonZeros` (src/CRSMatrix.hpp lines
220-225): the unsorted batch entry point sorts the candidate (column, value)
pairs as a unit (`dualSort`) and delegates to the sorted insertion.  A batch
with repeated columns would hand the sorted entry point a non-strictly
ascending list, violating its contract, so the batch's columns must be
distinct.
-/
def insertNonZeros {T : Type} (m : CRSMatrix T) (row : Nat) (pairs : List (Nat × T)) :
    Option (CRSMatrix T × Nat) :=
  if (keys pairs).Nodup then m.insertNonZerosSorted row (dualSort pairs) else none

/--
Modelled from the spec: `removeNonZero(row, col)` (aliased from the view
class, implementation not under `src/`): single sorted-set removal; "removing
an absent column" is an expected non-event reported via the Bool result.
-/
def removeNonZero {T : Type} (m : CRSMatrix T) (row col : Nat) :
    Option (CRSMatrix T × Bool) :=
  if row < m.numRows ∧ col < m.numCols then
    some ({ m with rows := m.rows.set row (rowRemoveOne (m.rowAt row) col).1 },
      (rowRemoveOne (m.rowAt row) col).2)
  else none

/--
Modelled from the spec: `removeNonZerosSorted(row, cols, ncols)` (aliased
from the view class, implementation not under `src/`): batch removal for
already-ascending column lists.
-/
def removeNonZerosSorted {T : Type} (m : CRSMatrix T) (row : Nat) (cs : List Nat) :
    Option (CRSMatrix T × Nat) :=
  if row < m.numRows ∧ (∀ c ∈ cs, c < m.numCols) ∧ cs.Pairwise (· < ·) then
    some ({ m with rows := m.rows.set row (rowRemoveLoop cs (m.rowAt row)).1 },
      (rowRemoveLoop cs (m.rowAt row)).2)
  else none

/--
Modelled from the spec: `removeNonZeros(row, cols, ncols)` (aliased from the
view class, implementation not under `src/`): sorts the columns and delegates
to the sorted removal.
-/
def removeNonZeros {T : Type} (m : CRSMatrix T) (row : Nat) (cs : List Nat) :
    Option (CRSMatrix T × Nat) :=
  if cs.Nodup then m.removeNonZerosSorted row (natSort cs) else none

/--
Translated from `CRSMatrix::setRowCapacity` (src/CRSMatrix.hpp lines
252-257): the requested capacity is clamped to `numColumns()`
(`if (newCapacity > numColumns()) newCapacity = numColumns()`), then the
row's region is resized with truncation (`setCapacityOfArray`).
-/
def setRowCapacity {T : Type} (m : CRSMatrix T) (row newCap : Nat) : Option (CRSMatrix T) :=
  if row < m.numRows then
    some { m with rows := m.rows.set row (rowSetCapacity (m.rowAt row) (min newCap m.numCols)) }
  else none

/--
Translated from `CRSMatrix::reserveNonZeros(row, nnz)` (src/CRSMatrix.hpp
lines 190-195): `if (nonZeroCapacity(row) >= nnz) return;` then
`setRowCapacity(row, nnz)`.
-/
def reserveNonZeros {T : Type} (m : CRSMatrix T) (row nnz : Nat) : Option (CRSMatrix T) :=
  if row < m.numRows then
    if m.nonZeroCapacity row ≥ nnz then some m else m.setRowCapacity row nnz
  else none

/--
Modelled from the spec: `compress()` (delegated to the view class,
implementation not under `src/`): "removes all per-row slack by shifting
every row's contents down ... leaving `sizes[r] == capacity[r]` for all
rows; it performs no allocation, only in-place relocation".
-/
def compress {T : Type} (m : CRSMatrix T) : CRSMatrix T :=
  { m with rows := m.rows.map fun r => { r with capacity := r.size } }

/--
Modelled from the spec: `resize(nRows, nCols, initialRowCapacity)`
(delegated to the view class, implementation not under `src/`): "reallocates
`offsets`/`sizes` to the new row count, zero-initializes new rows' sizes,
and sets `numColumns`; it deliberately does not purge columns that exceed
the new `numColumns` in previously existing rows".  New rows receive the
default capacity.
-/
def resize {T : Type} (m : CRSMatrix T) (nR nC cap : Nat) : CRSMatrix T :=
  ⟨nC, m.rows.take nR ++ List.replicate (nR - m.rows.length) (emptyRow cap)⟩

/--
Translated from the `CRSMatrix` constructor (src/CRSMatrix.hpp lines 73-80):
a fresh matrix is `resize(nrows, ncols, initialRowCapacity)` applied to the
default-initialized empty matrix.
-/
def init (T : Type) (nR nC cap : Nat) : CRSMatrix T := resize ⟨0, []⟩ nR nC cap

/-- Validity: spec invariants I2, I3 and the pairing prerequisite (equal buffer lengths) for every row. -/
def Valid {T : Type} (m : CRSMatrix T) : Prop := ∀ r ∈ m.rows, RowValid m.numCols r

/-- Abstraction to the specification-level state: the column count and, for every row, its positionally paired (column, value) list. -/
def absState {T : Type} (m : CRSMatrix T) : Nat × List (List (Nat × T)) :=
  (m.numCols, m.rows.map rowAbs)

end CRSMatrix

/-- One public insert or remove operation (single element, unsorted batch, sorted batch). -/
inductive EditOp (T : Type) where
  | insertOne (row col : Nat) (v : T)
  | insertMany (row : Nat) (pairs : List (Nat × T))
  | insertManySorted (row : Nat) (pairs : List (Nat × T))
  | removeOne (row col : Nat)
  | removeMany (row : Nat) (cs : List Nat)
  | removeManySorted (row : Nat) (cs : List Nat)
deriving DecidableEq

/-- State effect of one public insert/remove operation (reported counts discarded). -/
def applyEdit {T : Type} : EditOp T → CRSMatrix T → Option (CRSMatrix T)
  | .insertOne row col v, m => (m.insertNonZero row col v).map Prod.fst
  | .insertMany row pairs, m => (m.insertNonZeros row pairs).map Prod.fst
  | .insertManySorted row pairs, m => (m.insertNonZerosSorted row pairs).map Prod.fst
  | .removeOne row col, m => (m.removeNonZero row col).map Prod.fst
  | .removeMany row cs, m => (m.removeNonZeros row cs).map Prod.fst
  | .removeManySorted row cs, m => (m.removeNonZerosSorted row cs).map Prod.fst

/-- Sequential application of public insert/remove operations; a fatal contract violation anywhere aborts the whole sequence. -/
def applyEdits {T : Type} : List (EditOp T) → CRSMatrix T → Option (CRSMatrix T)
  | [], m => some m
  | op :: ops, m => (applyEdit op m).bind (applyEdits ops)

/--
Specification-level state effect of one operation: identical bounds and
ordering checks, but each row is held as its single positionally paired
(column, value) list, following the spec's data model (invariants I3/I4).
-/
def specApplyEdit {T : Type} :
    EditOp T → Nat × List (List (Nat × T)) → Option (Nat × List (List (Nat × T)))
  | .insertOne row col v, (nc, rs) =>
    if row < rs.length ∧ col < nc then
      some (nc, rs.set row (specInsertOne ((rs[row]?).getD []) col v).1)
    else none
  | .insertMany row pairs, (nc, rs) =>
    if (keys pairs).Nodup then
      if row < rs.length ∧ (∀ p ∈ dualSort pairs, p.1 < nc) ∧
          (dualSort pairs).Pairwise (fun a b => a.1 < b.1) then
        some (nc, rs.set row (specInsertLoop (dualSort pairs) ((rs[row]?).getD [])).1)
      else none
    else none
  | .insertManySorted row pairs, (nc, rs) =>
    if row < rs.length ∧ (∀ p ∈ pairs, p.1 < nc) ∧
        pairs.Pairwise (fun a b => a.1 < b.1) then
      some (nc, rs.set row (specInsertLoop pairs ((rs[row]?).getD [])).1)
    else none
  | .removeOne row col, (nc, rs) =>
    if row < rs.length ∧ col < nc then
      some (nc, rs.set row (specRemoveOne ((rs[row]?).getD []) col).1)
    else none
  | .removeMany row cs, (nc, rs) =>
    if cs.Nodup then
      if row < rs.length ∧ (∀ c ∈ natSort cs, c < nc) ∧ (natSort cs).Pairwise (· < ·) then
        some (nc, rs.set row (specRemoveLoop (natSort cs) ((rs[row]?).getD [])).1)
      else none
    else none
  | .removeManySorted row cs, (nc, rs) =>
    if row < rs.length ∧ (∀ c ∈ cs, c < nc) ∧ cs.Pairwise (· < ·) then
      some (nc, rs.set row (specRemoveLoop cs ((rs[row]?).getD [])).1)
    else none

/-- Specification-level sequential application. -/
def specApplyEdits {T : Type} :
    List (EditOp T) → Nat × List (List (Nat × T)) → Option (Nat × List (List (Nat × T)))
  | [], s => some s
  | op :: ops, s => (specApplyEdit op s).bind (specApplyEdits ops)

/-- One fully-mutating public operation, for quantifying over arbitrary owner-level mutation. -/
inductive MutOp (T : Type) where
  | edit (e : EditOp T)
  | setCap (row cap : Nat)
  | reserveRow (row nnz : Nat)
  | compressAll
  | resizeTo (nR nC cap : Nat)
deriving DecidableEq

/-- State effect of one owner-level mutation (a fatal contract violation leaves the state unchanged, as the engine aborts before mutating). -/
def applyMut {T : Type} : MutOp T → CRSMatrix T → CRSMatrix T
  | .edit e, m => (applyEdit e m).getD m
  | .setCap row cap, m => (m.setRowCapacity row cap).getD m
  | .reserveRow row nnz, m => (m.reserveNonZeros row nnz).getD m
  | .compressAll, m => m.compress
  | .resizeTo nR nC cap, m => m.resize nR nC cap

/-- Sequential owner-level mutation. -/
def applyMuts {T : Type} (ops : List (MutOp T)) (m : CRSMatrix T) : CRSMatrix T :=
  ops.foldl (fun acc op => applyMut op acc) m

/-- Matrix in the default-constructed state: zero rows, zero columns, no buffers. -/
def emptyMatrix (T : Type) : CRSMatrix T := ⟨0, []⟩

/--
Modelled from the spec: each owning matrix is the exclusive owner of its
buffer set ("Exclusive owner of buffer lifetime"), so distinct owners occupy
distinct slots of a store of buffer contents.  Copy assignment (`operator=`,
src/CRSMatrix.hpp lines 154-166) deep-copies every buffer of the source into
the destination's own buffers via `setEqualTo` (implementation not under
`src/`): "always a deep, independent copy of every buffer".
-/
def copyAssignTo {T : Type} (s : List (CRSMatrix T)) (dst src : Nat) : List (CRSMatrix T) :=
  s.set dst ((s[src]?).getD (emptyMatrix T))

/--
Modelled from the spec: move construction/assignment (src/CRSMatrix.hpp
lines 95-96 and 172-173, defaulted member moves whose buffer semantics are
not under `src/`) "transfers buffer ownership and leaves the source in an
empty-but-valid state (zero rows, zero capacity) — it must never leave
dangling buffers reachable from the moved-from object".
-/
def moveAssignTo {T : Type} (s : List (CRSMatrix T)) (dst src : Nat) : List (CRSMatrix T) :=
  (s.set dst ((s[src]?).getD (emptyMatrix T))).set src (emptyMatrix T)

/-- Mutation of one owning matrix through its own slot: only that slot's buffers are written. -/
def mutateSlot {T : Type} (s : List (CRSMatrix T)) (i : Nat) (ops : List (MutOp T)) :
    List (CRSMatrix T) :=
  s.set i (applyMuts ops ((s[i]?).getD (emptyMatrix T)))

/-- Scenario of spec §8: a 3×3 matrix with no initial capacity. -/
def exampleStart : CRSMatrix Int := CRSMatrix.init Int 3 3 0

/-- Unsorted batch of spec §8 scenario 1: (0, 1.0), (2, 3.0), (1, 2.0). -/
def exampleBatch : List (Nat × Int) := [(0, 1), (2, 3), (1, 2)]

/-- Result of scenario 1: row 0 holds columns [0, 1, 2] with entries [1, 2, 3]; batch growth set the row capacity to min(2·3, 3) = 3. -/
def exampleResult : CRSMatrix Int := ⟨3, [⟨[0, 1, 2], [1, 2, 3], 3⟩, ⟨[], [], 0⟩, ⟨[], [], 0⟩]⟩

/-- A 1×3 matrix whose single row is full at capacity 2: the next insertion overflows. -/
def overflowMatrix : CRSMatrix Int := ⟨3, [⟨[0, 1], [10, 20], 2⟩]⟩

/-- A 1×2 matrix constructed with `initialRowCapacity = 10`, exceeding `numColumns = 2`. -/
def overCapMatrix : CRSMatrix Int := CRSMatrix.init Int 1 2 10

/-- Decidability of structural row validity, so witnesses can be checked by evaluation. -/
instance {T : Type} (nc : Nat) (r : RowData T) : Decidable (RowOk nc r) :=
  decidable_of_iff
    (r.cols.Pairwise (· < ·) ∧ (∀ c ∈ r.cols, c < nc) ∧ r.entries.length = r.cols.length)
    Iff.rfl

/-- Decidability of full row validity. -/
instance {T : Type} (nc : Nat) (r : RowData T) : Decidable (RowValid nc r) :=
  decidable_of_iff (RowOk nc r ∧ r.size ≤ r.capacity) Iff.rfl

/-- Decidability of matrix validity. -/
instance {T : Type} (m : CRSMatrix T) : Decidable m.Valid :=
  decidable_of_iff (∀ r ∈ m.rows, RowValid m.numCols r) Iff.rfl

/-- A 2×3 matrix with one slot of capacity per row, starting point of the mixed insert/remove sequence. -/
def editStart : CRSMatrix Int := CRSMatrix.init Int 2 3 1

/-- A mixed sequence: single insert, unsorted batch insert, single remove, sorted batch insert. -/
def editOps : List (EditOp Int) :=
  [EditOp.insertOne 0 2 5, EditOp.insertMany 0 [(0, 1), (1, 2)], EditOp.removeOne 0 1,
    EditOp.insertManySorted 1 [(0, 7), (2, 9)]]

/-- Result of `editOps` on `editStart`. -/
def editResult : CRSMatrix Int := ⟨3, [⟨[0, 2], [1, 5], 3⟩, ⟨[0, 2], [7, 9], 3⟩]⟩

/-- A 1×2 matrix already holding (0, 1) at column 1. -/
def dupMatrix : CRSMatrix Int := ⟨2, [⟨[1], [5], 2⟩]⟩

/-- A 1×2 matrix with two nonzeros and slack capacity. -/
def capMatrix : CRSMatrix Int := ⟨2, [⟨[0, 1], [5, 6], 4⟩]⟩

/-- `capMatrix` after `setRowCapacity(0, 1)`: clamped to min(1, 2) = 1, truncated to one entry. -/
def capResult : CRSMatrix Int := ⟨2, [⟨[0], [5], 1⟩]⟩

/-- `overflowMatrix` after inserting column 2: capacity grew to min(2·3, 3) = 3. -/
def overflowResult : CRSMatrix Int := ⟨3, [⟨[0, 1, 2], [10, 20, 30], 3⟩]⟩

/-- A 2×2 matrix with inter-row slack, for the compress scenario. -/
def slackMatrix : CRSMatrix Int := ⟨2, [⟨[0], [4], 3⟩, ⟨[1], [6], 2⟩]⟩

/-- Two independent owning matrices sharing a store. -/
def ownerStore : List (CRSMatrix Int) := [⟨1, [⟨[0], [3], 1⟩]⟩, ⟨2, [⟨[0, 1], [7, 8], 2⟩]⟩]

/-- A store for the move scenario. -/
def moveStore : List (CRSMatrix Int) := [⟨1, [⟨[0], [3], 1⟩]⟩, ⟨3, [⟨[0, 2], [7, 8], 4⟩]⟩]

/-- A 2×4 matrix used to exercise `resize`: row 0 holds columns up to 3. -/
def resizeMatrix : CRSMatrix Int := ⟨4, [⟨[1, 3], [5, 6], 2⟩, ⟨[0], [9], 2⟩]⟩

/-- A mutation sequence driven through a store slot. -/
def mutOps : List (MutOp Int) := [MutOp.edit (EditOp.insertOne 0 0 42), MutOp.compressAll]

/-- `overCapMatrix` after `reserveNonZeros(0, 11)`: the clamp shrank the capacity to `numColumns = 2`. -/
def reservedResult : CRSMatrix Int := ⟨2, [⟨[], [], 2⟩]⟩

/-- `dupMatrix` after `reserveNonZeros(0, 3)`: the clamp to `numColumns = 2` leaves the capacity at 2. -/
def dupReserved : CRSMatrix Int := ⟨2, [⟨[1], [5], 2⟩]⟩

/-! ## Theorems -/

theorem length_insAt {α : Type} (a : α) :
    ∀ (p : Nat) (l : List α), p ≤ l.length → (insAt p a l).length = l.length + 1 := by
  intro p
  induction p with
  | zero => intro l _; rfl
  | succ p ih =>
    intro l hp
    cases l with
    | nil => simp at hp
    | cons b l =>
      simp only [insAt, List.length_cons]
      rw [ih l (by simpa using hp)]

theorem mem_insAt {α : Type} (a x : α) :
    ∀ (p : Nat) (l : List α), p ≤ l.length → (x ∈ insAt p a l ↔ x = a ∨ x ∈ l) := by
  intro p
  induction p with
  | zero =>
    intro l _
    simp [insAt]
  | succ p ih =>
    intro l hp
    cases l with
    | nil => simp at hp
    | cons b l =>
      simp only [insAt, List.mem_cons]
      rw [ih l (by simp at hp; omega)]
      tauto

theorem delAt_sublist {α : Type} : ∀ (p : Nat) (l : List α), (delAt p l).Sublist l := by
  intro p
  induction p with
  | zero =>
    intro l
    cases l with
    | nil => simp [delAt]
    | cons b l => simp [delAt, List.sublist_cons_self b l]
  | succ p ih =>
    intro l
    cases l with
    | nil => simp [delAt]
    | cons b l => simpa [delAt] using (ih l).cons₂ b

theorem length_delAt {α : Type} :
    ∀ (p : Nat) (l : List α), p < l.length → (delAt p l).length + 1 = l.length := by
  intro p
  induction p with
  | zero =>
    intro l hp
    cases l with
    | nil => simp at hp
    | cons b l => rfl
  | succ p ih =>
    intro l hp
    cases l with
    | nil => simp at hp
    | cons b l =>
      simp only [delAt, List.length_cons]
      rw [ih l (by simpa using hp)]

theorem length_delAt_of_ge {α : Type} :
    ∀ (p : Nat) (l : List α), l.length ≤ p → delAt p l = l := by
  intro p
  induction p with
  | zero =>
    intro l hp
    cases l with
    | nil => rfl
    | cons b l => simp at hp
  | succ p ih =>
    intro l hp
    cases l with
    | nil => rfl
    | cons b l =>
      simp only [delAt]
      rw [ih l (by simpa using hp)]

theorem lowerBound_le_length (c : Nat) : ∀ l : List Nat, lowerBound c l ≤ l.length := by
  intro l
  induction l with
  | nil => simp [lowerBound]
  | cons a l ih =>
    simp only [lowerBound, List.length_cons]
    split
    · omega
    · omega

theorem zip_insAt {α β : Type} (a : α) (b : β) :
    ∀ (p : Nat) (l₁ : List α) (l₂ : List β), p ≤ l₁.length → l₁.length = l₂.length →
      (insAt p a l₁).zip (insAt p b l₂) = insAt p (a, b) (l₁.zip l₂) := by
  intro p
  induction p with
  | zero => intro l₁ l₂ _ _; rfl
  | succ p ih =>
    intro l₁ l₂ hp hlen
    cases l₁ with
    | nil => simp at hp
    | cons x t₁ =>
      cases l₂ with
      | nil => simp at hlen
      | cons y t₂ =>
        simp only [insAt, List.zip_cons_cons]
        rw [ih t₁ t₂ (by simpa using hp) (by simpa using hlen)]
        rfl

theorem zip_delAt {α β : Type} :
    ∀ (p : Nat) (l₁ : List α) (l₂ : List β), l₁.length = l₂.length →
      (delAt p l₁).zip (delAt p l₂) = delAt p (l₁.zip l₂) := by
  intro p
  induction p with
  | zero =>
    intro l₁ l₂ hlen
    cases l₁ with
    | nil => rfl
    | cons x t₁ =>
      cases l₂ with
      | nil => simp at hlen
      | cons y t₂ => rfl
  | succ p ih =>
    intro l₁ l₂ hlen
    cases l₁ with
    | nil => rfl
    | cons x t₁ =>
      cases l₂ with
      | nil => simp at hlen
      | cons y t₂ =>
        simp only [delAt, List.zip_cons_cons]
        rw [ih t₁ t₂ (by simpa using hlen)]
        rfl

theorem pairwise_insAt_lowerBound {c : Nat} :
    ∀ {l : List Nat}, l.Pairwise (· < ·) → c ∉ l →
      (insAt (lowerBound c l) c l).Pairwise (· < ·) := by
  intro l
  induction l with
  | nil =>
    intro _ _
    simp [lowerBound, insAt]
  | cons a t ih =>
    intro hs hnm
    have hat : a ∈ a :: t := List.mem_cons_self a t
    have hna : c ≠ a := fun h => hnm (h ▸ hat)
    have hnt : c ∉ t := fun h => hnm (List.mem_cons_of_mem a h)
    rcases List.pairwise_cons.mp hs with ⟨hlt, hst⟩
    by_cases hac : a < c
    · simp only [lowerBound, if_pos hac, insAt]
      refine List.pairwise_cons.mpr ⟨?_, ih hst hnt⟩
      intro x hx
      rcases (mem_insAt c x (lowerBound c t) t (lowerBound_le_length c t)).mp hx with h | h
      · exact h ▸ hac
      · exact hlt x h
    · have hca : c < a := by omega
      simp only [lowerBound, if_neg hac, insAt]
      refine List.pairwise_cons.mpr ⟨?_, hs⟩
      intro x hx
      rcases List.mem_cons.mp hx with h | h
      · exact h ▸ hca
      · exact lt_trans hca (hlt x h)

theorem sorted_bounded_length {n : Nat} :
    ∀ {l : List Nat}, l.Pairwise (· < ·) → (∀ x ∈ l, x < n) → l.length ≤ n := by
  intro l hs hb
  have hnd : l.Nodup := hs.imp Nat.ne_of_lt
  have hsub : l.toFinset ⊆ Finset.range n := by
    intro x hx
    exact Finset.mem_range.mpr (hb x (List.mem_toFinset.mp hx))
  calc l.length = l.toFinset.card := (List.toFinset_card_of_nodup hnd).symm
    _ ≤ (Finset.range n).card := Finset.card_le_card hsub
    _ = n := Finset.card_range n

theorem set_get_self {α : Type} :
    ∀ (l : List α) (n : Nat) (h : n < l.length), l.set n (l.get ⟨n, h⟩) = l := by
  intro l
  induction l with
  | nil => intro n h; simp at h
  | cons a t ih =>
    intro n h
    cases n with
    | zero => rfl
    | succ n => simpa [List.set] using ih n (by simpa using h)

theorem lowerBound_lt_length_of_mem {c : Nat} :
    ∀ {l : List Nat}, c ∈ l → lowerBound c l < l.length := by
  intro l
  induction l with
  | nil => intro h; simp at h
  | cons a t ih =>
    intro h
    by_cases hac : a < c
    · have hne : c ≠ a := by omega
      have hct : c ∈ t := by
        rcases List.mem_cons.mp h with h1 | h1
        · exact absurd h1 hne
        · exact h1
      simp only [lowerBound, if_pos hac, List.length_cons]
      exact Nat.succ_lt_succ (ih hct)
    · simp only [lowerBound, if_neg hac, List.length_cons]
      omega

theorem keys_rowAbs {T : Type} {r : RowData T} (h : r.entries.length = r.cols.length) :
    keys (rowAbs r) = r.cols :=
  List.map_fst_zip r.cols r.entries (le_of_eq h.symm)

theorem RowOk.size_le_nc {T : Type} {nc : Nat} {r : RowData T} (h : RowOk nc r) :
    r.size ≤ nc :=
  sorted_bounded_length h.1 h.2.1

theorem growForInsert_spec {T : Type} (nc n : Nat) (r : RowData T) (h : RowOk nc r) :
    (growForInsert nc r n).cols = r.cols ∧ (growForInsert nc r n).entries = r.entries ∧
      min (r.size + n) nc ≤ (growForInsert nc r n).capacity := by
  have hsz : r.size ≤ nc := h.size_le_nc
  unfold growForInsert
  split
  · have h1 : r.cols.length ≤ min (2 * (r.size + n)) nc := by
      unfold RowData.size at hsz ⊢
      omega
    have h2 : r.entries.length ≤ min (2 * (r.size + n)) nc := by
      rw [h.2.2]
      exact h1
    refine ⟨List.take_of_length_le h1, List.take_of_length_le h2, ?_⟩
    show min (r.size + n) nc ≤ min (2 * (r.size + n)) nc
    omega
  · exact ⟨rfl, rfl, by omega⟩

theorem rowOk_of_fields {T : Type} {nc : Nat} {r r' : RowData T}
    (hc : r'.cols = r.cols) (he : r'.entries = r.entries) (h : RowOk nc r) : RowOk nc r' := by
  unfold RowOk at h ⊢
  rw [hc, he]
  exact h

theorem rowAbs_of_fields {T : Type} {r r' : RowData T}
    (hc : r'.cols = r.cols) (he : r'.entries = r.entries) : rowAbs r' = rowAbs r := by
  unfold rowAbs
  rw [hc, he]

theorem rowPlace_spec {T : Type} {nc : Nat} {r : RowData T} {c : Nat} {v : T}
    (h : RowOk nc r) (hc : c < nc) (hm : c ∉ r.cols) :
    RowOk nc (rowPlace r c v) ∧
      (rowPlace r c v).size = r.size + 1 ∧
      (rowPlace r c v).capacity = r.capacity ∧
      rowAbs (rowPlace r c v) = insAt (lowerBound c (keys (rowAbs r))) (c, v) (rowAbs r) := by
  obtain ⟨hsort, hbnd, hlen⟩ := h
  have hp : lowerBound c r.cols ≤ r.cols.length := lowerBound_le_length c r.cols
  have hpe : lowerBound c r.cols ≤ r.entries.length := by omega
  have hkeys : keys (rowAbs r) = r.cols := keys_rowAbs hlen
  refine ⟨⟨?_, ?_, ?_⟩, ?_, rfl, ?_⟩
  · exact pairwise_insAt_lowerBound hsort hm
  · intro x hx
    rcases (mem_insAt c x _ _ hp).mp hx with h1 | h1
    · exact h1 ▸ hc
    · exact hbnd x h1
  · show (insAt _ v r.entries).length = (insAt _ c r.cols).length
    rw [length_insAt _ _ _ hpe, length_insAt _ _ _ hp, hlen]
  · show (insAt _ c r.cols).length = r.cols.length + 1
    exact length_insAt _ _ _ hp
  · show (insAt _ c r.cols).zip (insAt _ v r.entries) = _
    rw [hkeys]
    exact zip_insAt c v _ r.cols r.entries hp hlen.symm

theorem rowInsertOne_spec {T : Type} {nc : Nat} {r : RowData T} {c : Nat} {v : T}
    (h : RowValid nc r) (hc : c < nc) :
    RowValid nc (rowInsertOne nc r c v).1 ∧
      rowAbs (rowInsertOne nc r c v).1 = (specInsertOne (rowAbs r) c v).1 ∧
      (rowInsertOne nc r c v).2 = (specInsertOne (rowAbs r) c v).2 := by
  obtain ⟨hok, hcap⟩ := h
  have hkeys : keys (rowAbs r) = r.cols := keys_rowAbs hok.2.2
  unfold rowInsertOne specInsertOne
  rw [hkeys]
  by_cases hm : c ∈ r.cols
  · rw [if_pos hm, if_pos hm]
    exact ⟨⟨hok, hcap⟩, rfl, rfl⟩
  · rw [if_neg hm, if_neg hm]
    obtain ⟨hgc, hge, hgcap⟩ := growForInsert_spec nc 1 r hok
    have hok1 : RowOk nc (growForInsert nc r 1) := rowOk_of_fields hgc hge hok
    have hm1 : c ∉ (growForInsert nc r 1).cols := hgc ▸ hm
    obtain ⟨hok2, hsz2, hcap2, habs2⟩ := rowPlace_spec hok1 hc hm1
    have hsize1 : (growForInsert nc r 1).size = r.size := by
      unfold RowData.size
      rw [hgc]
    refine ⟨⟨hok2, ?_⟩, ?_, rfl⟩
    · -- size + 1 fits below the grown capacity
      have hfin : (rowPlace (growForInsert nc r 1) c v).size ≤ nc := hok2.size_le_nc
      rw [hsz2, hsize1] at hfin
      rw [hcap2, hsz2, hsize1]
      omega
    · rw [habs2, rowAbs_of_fields hgc hge, hkeys]

theorem rowInsertLoop_spec {T : Type} {nc : Nat} :
    ∀ (pairs : List (Nat × T)) (r : RowData T), RowOk nc r → (∀ p ∈ pairs, p.1 < nc) →
      RowOk nc (rowInsertLoop pairs r).1 ∧
        (rowInsertLoop pairs r).1.capacity = r.capacity ∧
        (rowInsertLoop pairs r).1.size = r.size + (rowInsertLoop pairs r).2 ∧
        (rowInsertLoop pairs r).2 ≤ pairs.length ∧
        rowAbs (rowInsertLoop pairs r).1 = (specInsertLoop pairs (rowAbs r)).1 ∧
        (rowInsertLoop pairs r).2 = (specInsertLoop pairs (rowAbs r)).2 := by
  intro pairs
  induction pairs with
  | nil =>
    intro r hok _
    exact ⟨hok, rfl, rfl, Nat.le_refl 0, rfl, rfl⟩
  | cons p rest ih =>
    obtain ⟨c, v⟩ := p
    intro r hok hb
    have hkeys : keys (rowAbs r) = r.cols := keys_rowAbs hok.2.2
    have hc : c < nc := hb (c, v) (List.mem_cons_self _ _)
    have hbrest : ∀ q ∈ rest, q.1 < nc := fun q hq => hb q (List.mem_cons_of_mem _ hq)
    simp only [rowInsertLoop, specInsertLoop, hkeys]
    by_cases hm : c ∈ r.cols
    · simp only [if_pos hm]
      obtain ⟨h1, h2, h3, h4, h5, h6⟩ := ih r hok hbrest
      exact ⟨h1, h2, h3, le_trans h4 (Nat.le_succ _), h5, h6⟩
    · simp only [if_neg hm]
      obtain ⟨hok1, hsz1, hcap1, habs1⟩ := rowPlace_spec hok hc hm
      obtain ⟨hok2, hcap2, hsz2, hcnt2, habs2, hcnteq⟩ := ih (rowPlace r c v) hok1 hbrest
      rw [habs1] at habs2 hcnteq
      refine ⟨hok2, by rw [hcap2, hcap1], ?_, by simpa using Nat.succ_le_succ hcnt2, ?_, ?_⟩
      · rw [hsz2, hsz1]
        omega
      · simpa [hkeys] using habs2
      · simpa [hkeys] using hcnteq

theorem rowInsertSorted_spec {T : Type} {nc : Nat} (r : RowData T) (pairs : List (Nat × T))
    (h : RowValid nc r) (hb : ∀ p ∈ pairs, p.1 < nc) :
    RowValid nc (rowInsertSorted nc r pairs).1 ∧
      (rowInsertSorted nc r pairs).1.size = r.size + (rowInsertSorted nc r pairs).2 ∧
      (rowInsertSorted nc r pairs).2 ≤ pairs.length ∧
      rowAbs (rowInsertSorted nc r pairs).1 = (specInsertLoop pairs (rowAbs r)).1 ∧
      (rowInsertSorted nc r pairs).2 = (specInsertLoop pairs (rowAbs r)).2 ∧
      (rowInsertSorted nc r pairs).1.capacity = (growForInsert nc r pairs.length).capacity := by
  obtain ⟨hok, _⟩ := h
  obtain ⟨hgc, hge, hgcap⟩ := growForInsert_spec nc pairs.length r hok
  have hok1 : RowOk nc (growForInsert nc r pairs.length) := rowOk_of_fields hgc hge hok
  have hsize1 : (growForInsert nc r pairs.length).size = r.size := by
    unfold RowData.size
    rw [hgc]
  obtain ⟨hok2, hcap2, hsz2, hcnt2, habs2, hcnteq⟩ :=
    rowInsertLoop_spec pairs (growForInsert nc r pairs.length) hok1 hb
  unfold rowInsertSorted
  have hfin : (rowInsertLoop pairs (growForInsert nc r pairs.length)).1.size ≤ nc :=
    hok2.size_le_nc
  refine ⟨⟨hok2, ?_⟩, ?_, ?_, ?_, ?_, hcap2⟩
  · rw [hcap2, hsz2, hsize1] at *
    omega
  · rw [hsz2, hsize1]
  · exact hcnt2
  · rw [habs2, rowAbs_of_fields hgc hge]
  · rw [hcnteq, rowAbs_of_fields hgc hge]

theorem rowRemoveOne_spec {T : Type} {nc : Nat} {r : RowData T} {c : Nat} (h : RowOk nc r) :
    RowOk nc (rowRemoveOne r c).1 ∧
      (rowRemoveOne r c).1.capacity = r.capacity ∧
      (rowRemoveOne r c).1.size + (if (rowRemoveOne r c).2 then 1 else 0) = r.size ∧
      rowAbs (rowRemoveOne r c).1 = (specRemoveOne (rowAbs r) c).1 ∧
      (rowRemoveOne r c).2 = (specRemoveOne (rowAbs r) c).2 := by
  obtain ⟨hsort, hbnd, hlen⟩ := h
  have hkeys : keys (rowAbs r) = r.cols := keys_rowAbs hlen
  unfold rowRemoveOne specRemoveOne
  rw [hkeys]
  by_cases hm : c ∈ r.cols
  · rw [if_pos hm, if_pos hm]
    have hp : lowerBound c r.cols < r.cols.length := lowerBound_lt_length_of_mem hm
    have hpe : lowerBound c r.cols < r.entries.length := by omega
    refine ⟨⟨?_, ?_, ?_⟩, rfl, ?_, ?_, rfl⟩
    · exact hsort.sublist (delAt_sublist _ _)
    · intro x hx
      exact hbnd x ((delAt_sublist _ r.cols).subset hx)
    · show (delAt _ r.entries).length = (delAt _ r.cols).length
      have h1 := length_delAt _ r.cols hp
      have h2 := length_delAt _ r.entries hpe
      omega
    · show (delAt _ r.cols).length + 1 = r.cols.length
      exact length_delAt _ r.cols hp
    · show (delAt _ r.cols).zip (delAt _ r.entries) = delAt _ (r.cols.zip r.entries)
      exact zip_delAt _ r.cols r.entries hlen.symm
  · rw [if_neg hm, if_neg hm]
    exact ⟨⟨hsort, hbnd, hlen⟩, rfl, by simp, rfl, rfl⟩

theorem rowRemoveLoop_spec {T : Type} {nc : Nat} :
    ∀ (cs : List Nat) (r : RowData T), RowOk nc r →
      RowOk nc (rowRemoveLoop cs r).1 ∧
        (rowRemoveLoop cs r).1.capacity = r.capacity ∧
        (rowRemoveLoop cs r).1.size + (rowRemoveLoop cs r).2 = r.size ∧
        rowAbs (rowRemoveLoop cs r).1 = (specRemoveLoop cs (rowAbs r)).1 ∧
        (rowRemoveLoop cs r).2 = (specRemoveLoop cs (rowAbs r)).2 := by
  intro cs
  induction cs with
  | nil =>
    intro r hok
    exact ⟨hok, rfl, rfl, rfl, rfl⟩
  | cons c rest ih =>
    intro r hok
    obtain ⟨hok1, hcap1, hsz1, habs1, hb1⟩ := rowRemoveOne_spec (c := c) hok
    obtain ⟨hok2, hcap2, hsz2, habs2, hcnt2⟩ := ih (rowRemoveOne r c).1 hok1
    simp only [rowRemoveLoop, specRemoveLoop]
    refine ⟨hok2, by rw [hcap2, hcap1], ?_, ?_, ?_⟩
    · omega
    · rw [habs2, habs1]
    · rw [hcnt2, habs1, hb1]

theorem valid_rowAt {T : Type} {m : CRSMatrix T} (hv : m.Valid) {row : Nat}
    (h : row < m.numRows) : RowValid m.numCols (m.rowAt row) := by
  unfold CRSMatrix.rowAt
  rw [List.getElem?_eq_getElem h]
  exact hv _ (List.getElem_mem h)

theorem absState_row {T : Type} (m : CRSMatrix T) {row : Nat} (h : row < m.numRows) :
    ((m.rows.map rowAbs)[row]?).getD [] = rowAbs (m.rowAt row) := by
  rw [List.getElem?_map, List.getElem?_eq_getElem h]
  unfold CRSMatrix.rowAt
  rw [List.getElem?_eq_getElem h]
  rfl

theorem valid_set {T : Type} {m : CRSMatrix T} {row : Nat} {r' : RowData T}
    (hv : m.Valid) (h : RowValid m.numCols r') :
    CRSMatrix.Valid { m with rows := m.rows.set row r' } := by
  intro x hx
  rcases List.mem_or_eq_of_mem_set hx with h1 | h1
  · exact hv x h1
  · exact h1 ▸ h

theorem absState_set {T : Type} (m : CRSMatrix T) (row : Nat) (r' : RowData T) :
    CRSMatrix.absState { m with rows := m.rows.set row r' } =
      (m.numCols, (m.rows.map rowAbs).set row (rowAbs r')) := by
  unfold CRSMatrix.absState
  rw [List.map_set]

theorem numNonZeros_set {T : Type} (m : CRSMatrix T) {row : Nat} (r' : RowData T)
    (h : row < m.numRows) :
    CRSMatrix.numNonZeros { m with rows := m.rows.set row r' } row = r'.size := by
  unfold CRSMatrix.numNonZeros CRSMatrix.rowAt
  rw [List.getElem?_set_self (by simpa [CRSMatrix.numRows] using h)]
  rfl

theorem nonZeroCapacity_set {T : Type} (m : CRSMatrix T) {row : Nat} (r' : RowData T)
    (h : row < m.numRows) :
    CRSMatrix.nonZeroCapacity { m with rows := m.rows.set row r' } row = r'.capacity := by
  unfold CRSMatrix.nonZeroCapacity CRSMatrix.rowAt
  rw [List.getElem?_set_self (by simpa [CRSMatrix.numRows] using h)]
  rfl

theorem rowAt_set {T : Type} (m : CRSMatrix T) {row : Nat} (r' : RowData T)
    (h : row < m.numRows) :
    CRSMatrix.rowAt { m with rows := m.rows.set row r' } row = r' := by
  unfold CRSMatrix.rowAt
  rw [List.getElem?_set_self (by simpa [CRSMatrix.numRows] using h)]
  rfl

theorem insertNonZero_state {T : Type} {m : CRSMatrix T} {row col : Nat} {v : T}
    {res : CRSMatrix T × Bool}
    (hv : m.Valid) (h : m.insertNonZero row col v = some res) :
    res.1.Valid ∧
      specApplyEdit (.insertOne row col v) m.absState = some res.1.absState := by
  unfold CRSMatrix.insertNonZero at h
  split at h
  case isFalse => exact absurd h (by simp)
  case isTrue hcond =>
    obtain ⟨hrow, hcol⟩ := hcond
    have hres := Option.some.inj h
    obtain ⟨hval, habs, _⟩ := rowInsertOne_spec (valid_rowAt hv hrow) hcol (v := v)
    constructor
    · rw [← hres]
      exact valid_set hv hval
    · show specApplyEdit _ (m.numCols, m.rows.map rowAbs) = _
      simp only [specApplyEdit]
      rw [if_pos ⟨by simpa using hrow, hcol⟩, ← hres, absState_set,
        absState_row m hrow, habs]

theorem insertNonZerosSorted_state {T : Type} {m : CRSMatrix T} {row : Nat}
    {pairs : List (Nat × T)} {res : CRSMatrix T × Nat}
    (hv : m.Valid) (h : m.insertNonZerosSorted row pairs = some res) :
    res.1.Valid ∧
      specApplyEdit (.insertManySorted row pairs) m.absState = some res.1.absState ∧
      res.1.numNonZeros row = m.numNonZeros row + res.2 ∧
      res.2 ≤ pairs.length := by
  unfold CRSMatrix.insertNonZerosSorted at h
  split at h
  case isFalse => exact absurd h (by simp)
  case isTrue hcond =>
    obtain ⟨hrow, hbnd, hsort⟩ := hcond
    have hres := Option.some.inj h
    obtain ⟨hval, hsz, hcnt, habs, hcnte, hcap⟩ :=
      rowInsertSorted_spec (m.rowAt row) pairs (valid_rowAt hv hrow) hbnd
    refine ⟨?_, ?_, ?_, ?_⟩
    · rw [← hres]
      exact valid_set hv hval
    · show specApplyEdit _ (m.numCols, m.rows.map rowAbs) = _
      simp only [specApplyEdit]
      rw [if_pos ⟨by simpa using hrow, hbnd, hsort⟩, ← hres, absState_set,
        absState_row m hrow, habs]
    · rw [← hres]
      rw [numNonZeros_set m _ hrow, hsz]
      rfl
    · rw [← hres]
      exact hcnt

theorem removeNonZero_state {T : Type} {m : CRSMatrix T} {row col : Nat}
    {res : CRSMatrix T × Bool}
    (hv : m.Valid) (h : m.removeNonZero row col = some res) :
    res.1.Valid ∧
      specApplyEdit (.removeOne row col) m.absState = some res.1.absState := by
  unfold CRSMatrix.removeNonZero at h
  split at h
  case isFalse => exact absurd h (by simp)
  case isTrue hcond =>
    obtain ⟨hrow, hcol⟩ := hcond
    have hres := Option.some.inj h
    have hrv := valid_rowAt hv hrow
    obtain ⟨hok, hcap, hsz, habs, _⟩ := rowRemoveOne_spec (c := col) hrv.1
    constructor
    · rw [← hres]
      refine valid_set hv ⟨hok, ?_⟩
      have h1 : (rowRemoveOne (m.rowAt row) col).1.capacity = (m.rowAt row).capacity := hcap
      have h2 := hrv.2
      omega
    · show specApplyEdit _ (m.numCols, m.rows.map rowAbs) = _
      simp only [specApplyEdit]
      rw [if_pos ⟨by simpa using hrow, hcol⟩, ← hres, absState_set,
        absState_row m hrow, habs]

theorem removeNonZerosSorted_state {T : Type} {m : CRSMatrix T} {row : Nat}
    {cs : List Nat} {res : CRSMatrix T × Nat}
    (hv : m.Valid) (h : m.removeNonZerosSorted row cs = some res) :
    res.1.Valid ∧
      specApplyEdit (.removeManySorted row cs) m.absState = some res.1.absState := by
  unfold CRSMatrix.removeNonZerosSorted at h
  split at h
  case isFalse => exact absurd h (by simp)
  case isTrue hcond =>
    obtain ⟨hrow, hbnd, hsort⟩ := hcond
    have hres := Option.some.inj h
    have hrv := valid_rowAt hv hrow
    obtain ⟨hok, hcap, hsz, habs, _⟩ := rowRemoveLoop_spec cs (m.rowAt row) hrv.1
    constructor
    · rw [← hres]
      refine valid_set hv ⟨hok, ?_⟩
      have h1 : (rowRemoveLoop cs (m.rowAt row)).1.capacity = (m.rowAt row).capacity := hcap
      have h2 := hrv.2
      omega
    · show specApplyEdit _ (m.numCols, m.rows.map rowAbs) = _
      simp only [specApplyEdit]
      rw [if_pos ⟨by simpa using hrow, hbnd, hsort⟩, ← hres, absState_set,
        absState_row m hrow, habs]

theorem applyEdit_refines {T : Type} (op : EditOp T) (m m' : CRSMatrix T)
    (hv : m.Valid) (h : applyEdit op m = some m') :
    m'.Valid ∧ specApplyEdit op m.absState = some m'.absState := by
  cases op with
  | insertOne row col v =>
    simp only [applyEdit] at h
    cases hmo : m.insertNonZero row col v with
    | none => rw [hmo] at h; simp at h
    | some res =>
      rw [hmo] at h
      simp only [Option.map_some'] at h
      obtain ⟨h1, h2⟩ := insertNonZero_state hv hmo
      exact Option.some.inj h ▸ ⟨h1, h2⟩
  | insertManySorted row pairs =>
    simp only [applyEdit] at h
    cases hmo : m.insertNonZerosSorted row pairs with
    | none => rw [hmo] at h; simp at h
    | some res =>
      rw [hmo] at h
      simp only [Option.map_some'] at h
      obtain ⟨h1, h2, _, _⟩ := insertNonZerosSorted_state hv hmo
      exact Option.some.inj h ▸ ⟨h1, h2⟩
  | insertMany row pairs =>
    simp only [applyEdit, CRSMatrix.insertNonZeros] at h
    split at h
    case isFalse => simp at h
    case isTrue hdup =>
      cases hmo : m.insertNonZerosSorted row (dualSort pairs) with
      | none => rw [hmo] at h; simp at h
      | some res =>
        rw [hmo] at h
        simp only [Option.map_some'] at h
        obtain ⟨h1, h2, _, _⟩ := insertNonZerosSorted_state hv hmo
        have hspec : specApplyEdit (.insertMany row pairs) m.absState
            = specApplyEdit (.insertManySorted row (dualSort pairs)) m.absState := by
          simp only [CRSMatrix.absState, specApplyEdit, if_pos hdup]
        rw [hspec]
        exact Option.some.inj h ▸ ⟨h1, h2⟩
  | removeOne row col =>
    simp only [applyEdit] at h
    cases hmo : m.removeNonZero row col with
    | none => rw [hmo] at h; simp at h
    | some res =>
      rw [hmo] at h
      simp only [Option.map_some'] at h
      obtain ⟨h1, h2⟩ := removeNonZero_state hv hmo
      exact Option.some.inj h ▸ ⟨h1, h2⟩
  | removeManySorted row cs =>
    simp only [applyEdit] at h
    cases hmo : m.removeNonZerosSorted row cs with
    | none => rw [hmo] at h; simp at h
    | some res =>
      rw [hmo] at h
      simp only [Option.map_some'] at h
      obtain ⟨h1, h2⟩ := removeNonZerosSorted_state hv hmo
      exact Option.some.inj h ▸ ⟨h1, h2⟩
  | removeMany row cs =>
    simp only [applyEdit, CRSMatrix.removeNonZeros] at h
    split at h
    case isFalse => simp at h
    case isTrue hdup =>
      cases hmo : m.removeNonZerosSorted row (natSort cs) with
      | none => rw [hmo] at h; simp at h
      | some res =>
        rw [hmo] at h
        simp only [Option.map_some'] at h
        obtain ⟨h1, h2⟩ := removeNonZerosSorted_state hv hmo
        have hspec : specApplyEdit (.removeMany row cs) m.absState
            = specApplyEdit (.removeManySorted row (natSort cs)) m.absState := by
          simp only [CRSMatrix.absState, specApplyEdit, if_pos hdup]
        rw [hspec]
        exact Option.some.inj h ▸ ⟨h1, h2⟩

theorem applyEdits_refines {T : Type} :
    ∀ (ops : List (EditOp T)) (m m' : CRSMatrix T), m.Valid → applyEdits ops m = some m' →
      m'.Valid ∧ specApplyEdits ops m.absState = some m'.absState := by
  intro ops
  induction ops with
  | nil =>
    intro m m' hv h
    have h1 : m = m' := Option.some.inj h
    subst h1
    exact ⟨hv, rfl⟩
  | cons op ops ih =>
    intro m m' hv h
    simp only [applyEdits] at h
    cases hmo : applyEdit op m with
    | none => rw [hmo] at h; simp at h
    | some m₁ =>
      rw [hmo] at h
      simp only [Option.some_bind] at h
      obtain ⟨hv1, hs1⟩ := applyEdit_refines op m m₁ hv hmo
      obtain ⟨hv2, hs2⟩ := ih m₁ m' hv1 h
      refine ⟨hv2, ?_⟩
      simp only [specApplyEdits]
      rw [hs1]
      simpa using hs2

theorem sorted_bounded_length_lt {n c : Nat} {l : List Nat}
    (hs : l.Pairwise (· < ·)) (hb : ∀ x ∈ l, x < n) (hc : c < n) (hm : c ∉ l) :
    l.length < n := by
  have hnd : l.Nodup := hs.imp Nat.ne_of_lt
  have hsub : l.toFinset ⊆ (Finset.range n).erase c := by
    intro x hx
    have hxl : x ∈ l := List.mem_toFinset.mp hx
    refine Finset.mem_erase.mpr ⟨?_, Finset.mem_range.mpr (hb x hxl)⟩
    intro hxc
    exact hm (hxc ▸ hxl)
  have h1 : l.length = l.toFinset.card := (List.toFinset_card_of_nodup hnd).symm
  have h2 : l.toFinset.card ≤ ((Finset.range n).erase c).card := Finset.card_le_card hsub
  have h3 : ((Finset.range n).erase c).card = n - 1 := by
    rw [Finset.card_erase_of_mem (Finset.mem_range.mpr hc), Finset.card_range]
  omega

theorem length_pairOrderedInsert {T : Type} (p : Nat × T) :
    ∀ l : List (Nat × T), (pairOrderedInsert p l).length = l.length + 1 := by
  intro l
  induction l with
  | nil => rfl
  | cons q t ih =>
    simp only [pairOrderedInsert]
    split
    · rfl
    · simp only [List.length_cons, ih]

theorem length_dualSort {T : Type} : ∀ l : List (Nat × T), (dualSort l).length = l.length := by
  intro l
  induction l with
  | nil => rfl
  | cons p t ih =>
    simp only [dualSort, length_pairOrderedInsert, ih, List.length_cons]

theorem set_rowAt_self {T : Type} (m : CRSMatrix T) {row : Nat} (h : row < m.numRows) :
    m.rows.set row (m.rowAt row) = m.rows := by
  unfold CRSMatrix.rowAt
  rw [List.getElem?_eq_getElem h]
  exact set_get_self m.rows row h

/--
C1: for every row and after every sequence of public insert/remove
operations (single, unsorted batch, sorted batch) from a valid state, the
row's column sub-range is strictly ascending (hence unique) with each column
below `numColumns`, sizes fit capacities, and every global position stays
positionally paired: the final state abstracts to exactly the
specification-level evolution of paired (column, value) lists, so the entry
at every valid position is the one inserted alongside its column.
-/
theorem crsMatrix_edit_sequences_preserve_invariants_and_pairing {T : Type}
    (ops : List (EditOp T)) (m₀ m : CRSMatrix T)
    (h₀ : m₀.Valid) (h : applyEdits ops m₀ = some m) :
    m.Valid ∧ specApplyEdits ops m₀.absState = some m.absState :=
  applyEdits_refines ops m₀ m h₀ h

/-- Witness for C1: a concrete mixed insert/remove sequence on a 2×3 matrix. -/
theorem crsMatrix_edit_sequences_preserve_invariants_and_pairing_witness :
    editStart.Valid ∧ applyEdits editOps editStart = some editResult ∧
      (editResult.Valid ∧
        specApplyEdits editOps editStart.absState = some editResult.absState) :=
  ⟨by decide, by decide,
    crsMatrix_edit_sequences_preserve_invariants_and_pairing editOps editStart editResult
      (by decide) (by decide)⟩

/--
C2: inserting an already-present (row, col) pair returns `false` (zero
insertions) and leaves the matrix — in particular `numNonZeros(row)` and the
stored value at (row, col) — completely unchanged.
-/
theorem crsMatrix_duplicate_insert_is_noop {T : Type} (m : CRSMatrix T) (row col : Nat)
    (v : T) (hrow : row < m.numRows) (hcol : col < m.numCols)
    (hmem : col ∈ m.getColumns row) :
    m.insertNonZero row col v = some (m, false) := by
  unfold CRSMatrix.insertNonZero
  rw [if_pos ⟨hrow, hcol⟩]
  have hm : col ∈ (m.rowAt row).cols := hmem
  unfold rowInsertOne
  rw [if_pos hm]
  show some ({ m with rows := m.rows.set row (m.rowAt row) }, false) = some (m, false)
  rw [set_rowAt_self m hrow]

/-- Witness for C2: re-inserting column 1 of row 0 with a different value. -/
theorem crsMatrix_duplicate_insert_is_noop_witness :
    0 < dupMatrix.numRows ∧ 1 < dupMatrix.numCols ∧ 1 ∈ dupMatrix.getColumns 0 ∧
      dupMatrix.insertNonZero 0 1 9 = some (dupMatrix, false) :=
  ⟨by decide, by decide, by decide,
    crsMatrix_duplicate_insert_is_noop dupMatrix 0 1 9 (by decide) (by decide) (by decide)⟩

/--
C3: after `setRowCapacity(row, newCapacity)` the row's capacity equals
`min(newCapacity, numColumns())`, and if that resulting capacity is below
the row's current size the trailing entries are destroyed so
`numNonZeros(row)` equals the resulting capacity (truncation, not an error).
-/
theorem crsMatrix_setRowCapacity_clamps_and_truncates {T : Type} (m m' : CRSMatrix T)
    (row newCap : Nat) (h : m.setRowCapacity row newCap = some m') :
    m'.nonZeroCapacity row = min newCap m.numColumns ∧
      m'.numNonZeros row = min (m.numNonZeros row) (min newCap m.numColumns) ∧
      (min newCap m.numColumns < m.numNonZeros row →
        m'.numNonZeros row = min newCap m.numColumns) ∧
      m'.getColumns row = (m.getColumns row).take (min newCap m.numColumns) ∧
      m'.getEntries row = (m.getEntries row).take (min newCap m.numColumns) := by
  unfold CRSMatrix.setRowCapacity at h
  split at h
  case isFalse => exact absurd h (by simp)
  case isTrue hrow =>
    have hres := Option.some.inj h
    rw [← hres]
    have hcap := nonZeroCapacity_set m (rowSetCapacity (m.rowAt row) (min newCap m.numCols)) hrow
    have hsz := numNonZeros_set m (rowSetCapacity (m.rowAt row) (min newCap m.numCols)) hrow
    have hrowat := rowAt_set m (rowSetCapacity (m.rowAt row) (min newCap m.numCols)) hrow
    have hlen : (rowSetCapacity (m.rowAt row) (min newCap m.numCols)).size
        = min (m.numNonZeros row) (min newCap m.numCols) := by
      show ((m.rowAt row).cols.take (min newCap m.numCols)).length = _
      rw [List.length_take]
      show min (min newCap m.numCols) (m.numNonZeros row) = _
      omega
    refine ⟨?_, ?_, ?_, ?_, ?_⟩
    · rw [hcap]
      rfl
    · rw [hsz, hlen]
      rfl
    · intro _
      rw [hsz, hlen]
      show min (m.numNonZeros row) (min newCap m.numColumns) = min newCap m.numColumns
      omega
    · show (CRSMatrix.rowAt _ row).cols = _
      rw [hrowat]
      rfl
    · show (CRSMatrix.rowAt _ row).entries = _
      rw [hrowat]
      rfl

/-- Witness for C3: shrinking a row of size 2 to capacity 1 truncates it. -/
theorem crsMatrix_setRowCapacity_clamps_and_truncates_witness :
    capMatrix.setRowCapacity 0 1 = some capResult ∧
      (capResult.nonZeroCapacity 0 = min 1 capMatrix.numColumns ∧
        capResult.numNonZeros 0 = min (capMatrix.numNonZeros 0) (min 1 capMatrix.numColumns) ∧
        (min 1 capMatrix.numColumns < capMatrix.numNonZeros 0 →
          capResult.numNonZeros 0 = min 1 capMatrix.numColumns) ∧
        capResult.getColumns 0 = (capMatrix.getColumns 0).take (min 1 capMatrix.numColumns) ∧
        capResult.getEntries 0 = (capMatrix.getEntries 0).take (min 1 capMatrix.numColumns)) :=
  ⟨by decide, crsMatrix_setRowCapacity_clamps_and_truncates capMatrix capResult 0 1 (by decide)⟩

/--
C4 counterexample: in a 1×3 matrix whose row holds 2 nonzeros at capacity 2,
inserting one more element overflows; the required size is 3, but the new
capacity is min(2·3, 3) = 3, which is *not* at least 2 × 3 = 6.  The claim's
"new capacity ≥ 2× the pre-overflow requirement" fails whenever
2 × requiredSize exceeds `numColumns` (it also fails against the weaker
reading 2 × old size = 4 > 3).
-/
theorem crsMatrix_growth_doubling_counterexample :
    overflowMatrix.numNonZeros 0 + 1 > overflowMatrix.nonZeroCapacity 0 ∧
      overflowMatrix.insertNonZero 0 2 30 = some (overflowResult, true) ∧
      overflowResult.nonZeroCapacity 0 = 3 ∧
      ¬(overflowResult.nonZeroCapacity 0 ≥ 2 * (overflowMatrix.numNonZeros 0 + 1)) ∧
      ¬(overflowResult.nonZeroCapacity 0 ≥ 2 * overflowMatrix.numNonZeros 0) := by
  decide

/--
C4 amended: whenever a single insertion would make a row's size exceed its
capacity, growth runs before the entry is placed and sets the new capacity
to `min(2 × requiredSize, numColumns)` — hence the new capacity is at least
the required size, at most `numColumns`, and equals 2 × requiredSize exactly
when that does not exceed `numColumns`.
-/
theorem crsMatrix_growth_sets_min_double_numColumns {T : Type} (m : CRSMatrix T)
    (row col : Nat) (v : T) (res : CRSMatrix T × Bool)
    (hv : m.Valid) (hmem : col ∉ m.getColumns row)
    (hover : m.nonZeroCapacity row < m.numNonZeros row + 1)
    (h : m.insertNonZero row col v = some res) :
    res.2 = true ∧
      res.1.nonZeroCapacity row = min (2 * (m.numNonZeros row + 1)) m.numColumns ∧
      m.numNonZeros row + 1 ≤ res.1.nonZeroCapacity row ∧
      res.1.nonZeroCapacity row ≤ m.numColumns := by
  unfold CRSMatrix.insertNonZero at h
  split at h
  case isFalse => exact absurd h (by simp)
  case isTrue hcond =>
    obtain ⟨hrow, hcol⟩ := hcond
    have hres := Option.some.inj h
    have hm : col ∉ (m.rowAt row).cols := hmem
    have hrv := valid_rowAt hv hrow
    have hszlt : (m.rowAt row).size < m.numCols :=
      sorted_bounded_length_lt hrv.1.1 hrv.1.2.1 hcol hm
    have hgrow : growForInsert m.numCols (m.rowAt row) 1
        = rowSetCapacity (m.rowAt row) (min (2 * ((m.rowAt row).size + 1)) m.numCols) := by
      unfold growForInsert
      rw [if_pos]
      exact hover
    have hone : rowInsertOne m.numCols (m.rowAt row) col v
        = (rowPlace (growForInsert m.numCols (m.rowAt row) 1) col v, true) := by
      unfold rowInsertOne
      rw [if_neg hm]
    rw [← hres]
    have hcapset := nonZeroCapacity_set m (rowInsertOne m.numCols (m.rowAt row) col v).1 hrow
    refine ⟨by rw [hone], ?_, ?_, ?_⟩
    · rw [hcapset, hone, hgrow]
      rfl
    · rw [hcapset, hone, hgrow]
      show m.numNonZeros row + 1 ≤ min (2 * ((m.rowAt row).size + 1)) m.numCols
      have : m.numNonZeros row = (m.rowAt row).size := rfl
      omega
    · rw [hcapset, hone, hgrow]
      show min (2 * ((m.rowAt row).size + 1)) m.numCols ≤ m.numCols
      omega

/-- Witness for C4 (amended): the overflowing insertion of the counterexample obeys the min-clamped doubling rule. -/
theorem crsMatrix_growth_sets_min_double_numColumns_witness :
    overflowMatrix.Valid ∧ (2 : Nat) ∉ overflowMatrix.getColumns 0 ∧
      overflowMatrix.nonZeroCapacity 0 < overflowMatrix.numNonZeros 0 + 1 ∧
      overflowMatrix.insertNonZero 0 2 30 = some (overflowResult, true) ∧
      ((overflowResult, true).2 = true ∧
        (overflowResult, true).1.nonZeroCapacity 0
          = min (2 * (overflowMatrix.numNonZeros 0 + 1)) overflowMatrix.numColumns ∧
        overflowMatrix.numNonZeros 0 + 1 ≤ (overflowResult, true).1.nonZeroCapacity 0 ∧
        (overflowResult, true).1.nonZeroCapacity 0 ≤ overflowMatrix.numColumns) :=
  ⟨by decide, by decide, by decide, by decide,
    crsMatrix_growth_sets_min_double_numColumns overflowMatrix 0 2 30 (overflowResult, true)
      (by decide) (by decide) (by decide) (by decide)⟩

/--
C5: `compress()` changes no logical (row, col) → value mapping (the
abstraction to paired lists, and with it the column count, is untouched);
afterwards `nonZeroCapacity(row) = numNonZeros(row)` for every row and the
total capacity equals the total number of nonzeros.  It allocates nothing:
the total backing requirement never grows.
-/
theorem crsMatrix_compress_invariance {T : Type} (m : CRSMatrix T) (hv : m.Valid) :
    m.compress.absState = m.absState ∧
      (∀ row, m.compress.nonZeroCapacity row = m.compress.numNonZeros row) ∧
      m.compress.totalCapacity = m.totalNonZeros ∧
      m.compress.totalNonZeros = m.totalNonZeros ∧
      m.compress.totalCapacity ≤ m.totalCapacity := by
  have habs : m.compress.absState = m.absState := by
    unfold CRSMatrix.compress CRSMatrix.absState
    simp only [List.map_map]
    rfl
  have hcap : m.compress.totalCapacity = m.totalNonZeros := by
    unfold CRSMatrix.compress CRSMatrix.totalCapacity CRSMatrix.totalNonZeros
    simp only [List.map_map]
    rfl
  refine ⟨habs, ?_, hcap, ?_, ?_⟩
  · intro row
    unfold CRSMatrix.nonZeroCapacity CRSMatrix.numNonZeros CRSMatrix.rowAt CRSMatrix.compress
    rw [List.getElem?_map]
    cases m.rows[row]? with
    | none => rfl
    | some r => rfl
  · unfold CRSMatrix.compress CRSMatrix.totalNonZeros
    simp only [List.map_map]
    rfl
  · rw [hcap]
    unfold CRSMatrix.totalNonZeros CRSMatrix.totalCapacity
    exact List.sum_le_sum fun r hr => (hv r hr).2

/-- Witness for C5: compressing a 2×2 matrix with slack in both rows. -/
theorem crsMatrix_compress_invariance_witness :
    slackMatrix.Valid ∧
      (slackMatrix.compress.absState = slackMatrix.absState ∧
        (∀ row, slackMatrix.compress.nonZeroCapacity row
          = slackMatrix.compress.numNonZeros row) ∧
        slackMatrix.compress.totalCapacity = slackMatrix.totalNonZeros ∧
        slackMatrix.compress.totalNonZeros = slackMatrix.totalNonZeros ∧
        slackMatrix.compress.totalCapacity ≤ slackMatrix.totalCapacity) :=
  ⟨by decide, crsMatrix_compress_invariance slackMatrix (by decide)⟩

/--
C6: copy assignment between two owning matrices (distinct slots of the
buffer store) makes the copy's dimensions, structure and values equal the
source's, and any subsequent sequence of mutations applied through one owner
leaves every observable of the other unchanged, in both directions.
-/
theorem crsMatrix_deep_copy_independence {T : Type} (s : List (CRSMatrix T))
    (dst src : Nat) (ops : List (MutOp T))
    (hdst : dst < s.length) (hsrc : src < s.length) (hne : dst ≠ src) :
    ((copyAssignTo s dst src)[dst]?) = (s[src]?) ∧
      ((mutateSlot (copyAssignTo s dst src) dst ops)[src]?)
        = ((copyAssignTo s dst src)[src]?) ∧
      ((mutateSlot (copyAssignTo s dst src) src ops)[dst]?)
        = ((copyAssignTo s dst src)[dst]?) := by
  unfold copyAssignTo mutateSlot
  refine ⟨?_, ?_, ?_⟩
  · rw [List.getElem?_set_self hdst, List.getElem?_eq_getElem hsrc]
    rfl
  · exact List.getElem?_set_ne hne
  · exact List.getElem?_set_ne hne.symm

/-- Witness for C6: two concrete owners, with an insertion and a compression driven through each side. -/
theorem crsMatrix_deep_copy_independence_witness :
    (0 : Nat) < ownerStore.length ∧ (1 : Nat) < ownerStore.length ∧ (0 : Nat) ≠ 1 ∧
      (((copyAssignTo ownerStore 0 1)[0]?) = (ownerStore[1]?) ∧
        ((mutateSlot (copyAssignTo ownerStore 0 1) 0 mutOps)[1]?)
          = ((copyAssignTo ownerStore 0 1)[1]?) ∧
        ((mutateSlot (copyAssignTo ownerStore 0 1) 1 mutOps)[0]?)
          = ((copyAssignTo ownerStore 0 1)[0]?)) :=
  ⟨by decide, by decide, by decide,
    crsMatrix_deep_copy_independence ownerStore 0 1 mutOps (by decide) (by decide) (by decide)⟩

/--
C7: after a move from an owning matrix, the moved-from source holds the
empty-but-valid state — zero rows, zero total capacity, trivially valid and
safely destructible, with its buffers transferred to the destination rather
than still reachable from the source.
-/
theorem crsMatrix_move_empties_source {T : Type} (s : List (CRSMatrix T)) (dst src : Nat)
    (hdst : dst < s.length) (hsrc : src < s.length) (hne : dst ≠ src) :
    ((moveAssignTo s dst src)[src]?) = some (emptyMatrix T) ∧
      (emptyMatrix T).numRows = 0 ∧ (emptyMatrix T).totalCapacity = 0 ∧
      (emptyMatrix T).Valid ∧
      ((moveAssignTo s dst src)[dst]?) = (s[src]?) := by
  unfold moveAssignTo
  refine ⟨?_, rfl, rfl, ?_, ?_⟩
  · exact List.getElem?_set_self (by simpa using hsrc)
  · intro r hr
    exact absurd hr (List.not_mem_nil r)
  · rw [List.getElem?_set_ne hne.symm, List.getElem?_set_self hdst,
      List.getElem?_eq_getElem hsrc]
    rfl

/-- Witness for C7: moving the populated owner of `moveStore` into slot 0. -/
theorem crsMatrix_move_empties_source_witness :
    (0 : Nat) < moveStore.length ∧ (1 : Nat) < moveStore.length ∧ (0 : Nat) ≠ 1 ∧
      (((moveAssignTo moveStore 0 1)[1]?) = some (emptyMatrix Int) ∧
        (emptyMatrix Int).numRows = 0 ∧ (emptyMatrix Int).totalCapacity = 0 ∧
        (emptyMatrix Int).Valid ∧
        ((moveAssignTo moveStore 0 1)[0]?) = (moveStore[1]?)) :=
  ⟨by decide, by decide, by decide,
    crsMatrix_move_empties_source moveStore 0 1 (by decide) (by decide) (by decide)⟩

/--
C8: `resize(nRows, nCols, initialRowCapacity)` sets `numColumns` and the row
count, gives every newly added row size zero and the default capacity, and
leaves the column indices and entries of every surviving pre-existing row
untouched — unconditionally in `nCols`, so column indices at or beyond the
new `numColumns` are deliberately left in place.
-/
theorem crsMatrix_resize_frame {T : Type} (m : CRSMatrix T) (nR nC cap r : Nat)
    (hr : r < nR) :
    (m.resize nR nC cap).numColumns = nC ∧
      (m.resize nR nC cap).numRows = nR ∧
      (r < m.numRows →
        (m.resize nR nC cap).getColumns r = m.getColumns r ∧
        (m.resize nR nC cap).getEntries r = m.getEntries r ∧
        (m.resize nR nC cap).numNonZeros r = m.numNonZeros r ∧
        (m.resize nR nC cap).nonZeroCapacity r = m.nonZeroCapacity r) ∧
      (m.numRows ≤ r →
        (m.resize nR nC cap).numNonZeros r = 0 ∧
        (m.resize nR nC cap).nonZeroCapacity r = cap) := by
  refine ⟨rfl, ?_, ?_, ?_⟩
  · show (m.rows.take nR ++ List.replicate (nR - m.rows.length) (emptyRow cap)).length = nR
    rw [List.length_append, List.length_take, List.length_replicate]
    omega
  · intro hlt
    have hlt' : r < m.rows.length := hlt
    have hrowat : (m.resize nR nC cap).rowAt r = m.rowAt r := by
      show ((m.rows.take nR ++ List.replicate (nR - m.rows.length) (emptyRow cap))[r]?).getD _
        = (m.rows[r]?).getD _
      rw [List.getElem?_append, if_pos (by rw [List.length_take]; omega),
        List.getElem?_take, if_pos hr]
    exact ⟨congrArg RowData.cols hrowat, congrArg RowData.entries hrowat,
      congrArg RowData.size hrowat, congrArg RowData.capacity hrowat⟩
  · intro hge
    have hnr : m.rows.length ≤ r := hge
    have hrowat : (m.resize nR nC cap).rowAt r = emptyRow cap := by
      show ((m.rows.take nR ++ List.replicate (nR - m.rows.length) (emptyRow cap))[r]?).getD _
        = _
      have hlen : (m.rows.take nR).length = m.rows.length := by
        rw [List.length_take]
        omega
      rw [List.getElem?_append, hlen, if_neg (by omega), List.getElem?_replicate,
        if_pos (by omega)]
      rfl
    constructor
    · show ((m.resize nR nC cap).rowAt r).size = 0
      rw [hrowat]
      rfl
    · show ((m.resize nR nC cap).rowAt r).capacity = cap
      rw [hrowat]
      rfl

/-- Witness for C8: shrinking a 2×4 matrix to 3 rows and 2 columns leaves row 0's out-of-range column 3 in place, and row 2 is new with capacity 7. -/
theorem crsMatrix_resize_frame_witness :
    (0 : Nat) < 3 ∧
      ((resizeMatrix.resize 3 2 7).numColumns = 2 ∧
        (resizeMatrix.resize 3 2 7).numRows = 3 ∧
        (0 < resizeMatrix.numRows →
          (resizeMatrix.resize 3 2 7).getColumns 0 = resizeMatrix.getColumns 0 ∧
          (resizeMatrix.resize 3 2 7).getEntries 0 = resizeMatrix.getEntries 0 ∧
          (resizeMatrix.resize 3 2 7).numNonZeros 0 = resizeMatrix.numNonZeros 0 ∧
          (resizeMatrix.resize 3 2 7).nonZeroCapacity 0 = resizeMatrix.nonZeroCapacity 0) ∧
        (resizeMatrix.numRows ≤ 0 →
          (resizeMatrix.resize 3 2 7).numNonZeros 0 = 0 ∧
          (resizeMatrix.resize 3 2 7).nonZeroCapacity 0 = 7)) :=
  ⟨by decide, crsMatrix_resize_frame resizeMatrix 3 2 7 0 (by decide)⟩

/--
C9: the unsorted batch insertion sorts the candidate (column, value) pairs
as a unit before delegating to the sorted insertion, and returns exactly the
number of elements actually inserted (duplicates against existing columns
are skipped); on the spec's scenario — inserting (0, 1.0), (2, 3.0),
(1, 2.0) into an empty 3×3 matrix — row 0 becomes columns [0, 1, 2] with
entries [1.0, 2.0, 3.0].
-/
theorem crsMatrix_unsorted_batch_insert_spec :
    (∀ (T : Type) (m : CRSMatrix T) (row : Nat) (pairs : List (Nat × T))
        (res : CRSMatrix T × Nat), m.Valid → m.insertNonZeros row pairs = some res →
        m.insertNonZeros row pairs = m.insertNonZerosSorted row (dualSort pairs) ∧
        res.1.numNonZeros row = m.numNonZeros row + res.2 ∧
        res.2 ≤ pairs.length) ∧
      exampleStart.insertNonZeros 0 exampleBatch = some (exampleResult, 3) ∧
      exampleResult.getColumns 0 = [0, 1, 2] ∧
      exampleResult.getEntries 0 = [1, 2, 3] := by
  refine ⟨?_, by decide, by decide, by decide⟩
  intro T m row pairs res hv h
  have hdup : (keys pairs).Nodup := by
    by_contra hdup
    unfold CRSMatrix.insertNonZeros at h
    rw [if_neg hdup] at h
    exact absurd h (by simp)
  have hdel : m.insertNonZeros row pairs = m.insertNonZerosSorted row (dualSort pairs) := by
    unfold CRSMatrix.insertNonZeros
    rw [if_pos hdup]
  rw [hdel] at h
  obtain ⟨_, _, hcnt, hle⟩ := insertNonZerosSorted_state hv h
  refine ⟨hdel, hcnt, ?_⟩
  rw [← length_dualSort pairs]
  exact hle

/-- Witness for C9: the scenario input discharges the general count property. -/
theorem crsMatrix_unsorted_batch_insert_spec_witness :
    exampleStart.Valid ∧
      (exampleStart.insertNonZeros 0 exampleBatch
          = exampleStart.insertNonZerosSorted 0 (dualSort exampleBatch) ∧
        (exampleResult, 3).1.numNonZeros 0
          = exampleStart.numNonZeros 0 + (exampleResult, 3).2 ∧
        (exampleResult, 3).2 ≤ exampleBatch.length) :=
  ⟨by decide,
    crsMatrix_unsorted_batch_insert_spec.1 Int exampleStart 0 exampleBatch
      (exampleResult, 3) (by decide) (by decide)⟩

/--
C10 counterexample: a row built with `initialRowCapacity = 10` in a matrix
with only 2 columns has capacity 10; `reserveNonZeros(0, 11)` is not a no-op
(10 < 11) and sets the capacity to min(11, numColumns) = 2, *decreasing* it
— refuting "reserveNonZeros(row, nnz) never decreases a row's capacity".
-/
theorem crsMatrix_reserve_row_decrease_counterexample :
    overCapMatrix.nonZeroCapacity 0 = 10 ∧
      overCapMatrix.reserveNonZeros 0 11 = some reservedResult ∧
      reservedResult.nonZeroCapacity 0 = 2 ∧
      reservedResult.nonZeroCapacity 0 < overCapMatrix.nonZeroCapacity 0 := by
  decide

/--
C10 amended: `reserveNonZeros(row, nnz)` is a no-op when the row's capacity
is already at least `nnz`; otherwise it sets the capacity to
`min(nnz, numColumns())` — which cannot decrease the capacity unless the
current capacity already exceeds `numColumns()` — and in either case the
row's size and stored (column, value) pairs are unchanged.
-/
theorem crsMatrix_reserve_row_spec {T : Type} (m m' : CRSMatrix T) (row nnz : Nat)
    (hv : m.Valid) (h : m.reserveNonZeros row nnz = some m') :
    (nnz ≤ m.nonZeroCapacity row → m' = m) ∧
      (m.nonZeroCapacity row < nnz →
        m'.nonZeroCapacity row = min nnz m.numColumns) ∧
      m'.getColumns row = m.getColumns row ∧
      m'.getEntries row = m.getEntries row ∧
      m'.numNonZeros row = m.numNonZeros row ∧
      (m.nonZeroCapacity row ≤ m.numColumns →
        m.nonZeroCapacity row ≤ m'.nonZeroCapacity row) := by
  unfold CRSMatrix.reserveNonZeros at h
  split at h
  case isFalse => exact absurd h (by simp)
  case isTrue hrow =>
    split at h
    case isTrue hge =>
      have hres : m = m' := Option.some.inj h
      subst hres
      exact ⟨fun _ => rfl, fun hlt => absurd hge (by omega), rfl, rfl, rfl, fun _ => le_refl _⟩
    case isFalse hlt' =>
      unfold CRSMatrix.setRowCapacity at h
      rw [if_pos hrow] at h
      have hres := Option.some.inj h
      rw [← hres]
      have hrv := valid_rowAt hv hrow
      have hsznc : (m.rowAt row).size ≤ m.numCols := hrv.1.size_le_nc
      have hszcap : (m.rowAt row).size ≤ (m.rowAt row).capacity := hrv.2
      have hcapdef : m.nonZeroCapacity row = (m.rowAt row).capacity := rfl
      have hszdef : (m.rowAt row).size = (m.rowAt row).cols.length := rfl
      have hcapset := nonZeroCapacity_set m (rowSetCapacity (m.rowAt row) (min nnz m.numCols)) hrow
      have hrowat := rowAt_set m (rowSetCapacity (m.rowAt row) (min nnz m.numCols)) hrow
      have htake1 : (m.rowAt row).cols.take (min nnz m.numCols) = (m.rowAt row).cols := by
        apply List.take_of_length_le
        omega
      have htake2 : (m.rowAt row).entries.take (min nnz m.numCols) = (m.rowAt row).entries := by
        apply List.take_of_length_le
        have hel : (m.rowAt row).entries.length = (m.rowAt row).cols.length := hrv.1.2.2
        omega
      refine ⟨fun hge' => absurd hge' hlt', fun _ => ?_, ?_, ?_, ?_, fun hle => ?_⟩
      · rw [hcapset]
        rfl
      · show (CRSMatrix.rowAt _ row).cols = _
        rw [hrowat]
        exact htake1
      · show (CRSMatrix.rowAt _ row).entries = _
        rw [hrowat]
        exact htake2
      · show ((CRSMatrix.rowAt _ row)).size = _
        rw [hrowat]
        show ((m.rowAt row).cols.take (min nnz m.numCols)).length = _
        rw [htake1]
        rfl
      · rw [hcapset]
        show m.nonZeroCapacity row ≤ min nnz m.numCols
        have hnc : m.numColumns = m.numCols := rfl
        omega

/-- Witness for C10 (amended): reserving 3 slots in a row of capacity 2 inside a 1×2 matrix, where the clamp binds. -/
theorem crsMatrix_reserve_row_spec_witness :
    dupMatrix.Valid ∧ dupMatrix.reserveNonZeros 0 3 = some dupReserved ∧
      ((3 ≤ dupMatrix.nonZeroCapacity 0 → dupReserved = dupMatrix) ∧
        (dupMatrix.nonZeroCapacity 0 < 3 →
          dupReserved.nonZeroCapacity 0 = min 3 dupMatrix.numColumns) ∧
        dupReserved.getColumns 0 = dupMatrix.getColumns 0 ∧
        dupReserved.getEntries 0 = dupMatrix.getEntries 0 ∧
        dupReserved.numNonZeros 0 = dupMatrix.numNonZeros 0 ∧
        (dupMatrix.nonZeroCapacity 0 ≤ dupMatrix.numColumns →
          dupMatrix.nonZeroCapacity 0 ≤ dupReserved.nonZeroCapacity 0)) :=
  ⟨by decide, by decide,
    crsMatrix_reserve_row_spec dupMatrix dupReserved 0 3 (by decide) (by decide)⟩

end LvArray
